import Mathlib

/-!
Verification of the Blocknote chunked-payload codec and transport.

This file shallowly embeds the parts of the Blocknote sources that the
checked properties are about: the chunk builder and payment-transaction
builders of the blocknote writer, the reader's counter-ordered
reassembly, the `none` codec, the revision-tag validity check, the
streamnote stop detection, the sender retry policy, the streamnote
writer's processor step and the streamnote reader's consolidation.
Byte buffers are lists of naturals, JS `undefined`/`null` is `Option`,
thrown JS errors are `Except` errors, and machine 32-bit counter
encoding is explicit `% 2^32` arithmetic.
-/

namespace Blocknote

/-- Byte buffers (`Uint8Array` / `Buffer`); every byte written by the
embedded code is below 256. -/
abbrev Bytes := List Nat

/-- `DataView.setUint32(0, counter, true)`: the 4-byte little-endian
encoding (`setUint32` stores the value mod 2^32). -/
def le32encode (n : Nat) : Bytes :=
  [n % 256, n / 256 % 256, n / 65536 % 256, n / 16777216 % 256]

/-- `DataView.getUint32(0, true)` over the first four bytes of a buffer. -/
def le32decode (b : Bytes) : Nat :=
  b.getD 0 0 + b.getD 1 0 * 256 + b.getD 2 0 * 65536 + b.getD 3 0 * 16777216

/-- `Blocknote.prependCounterToContent`: a new buffer with the 4 counter
bytes first and the content after. -/
def prependCounterToContent (content : Bytes) (counter : Nat) : Bytes :=
  le32encode counter ++ content

/-- Max note size in bytes (`this.note_max_size`). -/
def note_max_size : Nat := 1024

/-- One data chunk built by the slicing loop of `Blocknote.start`: the note
bytes, and whether it was built as the last chunk (`is_last_chunk`). -/
structure Chunk where
  note : Bytes
  isLast : Bool
deriving DecidableEq

/-- One bounded unfolding of the chunk-building loop of `Blocknote.start`:
prepend the counter to the content, take the first 1024 bytes as the note to
send, keep the remainder as the new content, and stop once the remainder is
empty.  `fuel` only bounds the recursion depth (each step consumes 1020
content bytes, so `content.length + 1` steps always suffice); the zero-fuel
branch is unreachable from `buildChunks`. -/
def buildChunksFuel : Nat → Bytes → Nat → List Chunk
  | 0, _, _ => []
  | fuel + 1, content, counter =>
    if ((prependCounterToContent content counter).drop note_max_size).length = 0 then
      [⟨(prependCounterToContent content counter).take note_max_size, true⟩]
    else
      ⟨(prependCounterToContent content counter).take note_max_size, false⟩ ::
        buildChunksFuel fuel
          ((prependCounterToContent content counter).drop note_max_size) (counter + 1)

/-- The chunk-building loop of `Blocknote.start`. -/
def buildChunks (content : Bytes) (counter : Nat) : List Chunk :=
  buildChunksFuel (content.length + 1) content counter

/-- The number of data chunks (hence data transactions) a content buffer
produces: one per 1020 content bytes, and at least one. -/
def numChunks (content : Bytes) : Nat :=
  if content.length ≤ 1020 then 1 else numChunks (content.drop 1020) + 1
termination_by content.length
decreasing_by
  simp at *
  omega

/-- The 1020-byte slice of the content carried by the chunk of index `i`. -/
def chunkData (content : Bytes) (i : Nat) : Bytes :=
  (content.drop (1020 * i)).take 1020

/-- An account of the chain adapter; only the address matters here. -/
structure Account where
  addr : String
deriving DecidableEq

/-- A built-and-signed payment transaction (`makePaymentTransaction`):
`params` stands for the suggested-params snapshot it was built from. -/
structure PayTxn where
  params : Nat
  sender : String
  receiver : String
  closeRemainderTo : Option String
  amount : Nat
  note : Bytes
deriving DecidableEq

/-- `makePaymentTransaction` of the chain adapter: with `close_to_remainder`
the transaction goes receiver to receiver and closes the account to the
sender; otherwise it goes sender to receiver. -/
def makePaymentTransaction (params : Nat) (sender receiver : Account) (note : Bytes)
    (amount : Nat) (close_to_remainder : Bool) : PayTxn :=
  if close_to_remainder then
    { params := params, sender := receiver.addr, receiver := receiver.addr,
      closeRemainderTo := some sender.addr, amount := amount, note := note }
  else
    { params := params, sender := sender.addr, receiver := receiver.addr,
      closeRemainderTo := none, amount := amount, note := note }

/-- `buildTransaction` of the chain adapter: a zero-amount payment carrying a
note, closing the receiver account when this is the last chunk. -/
def buildTransaction (params : Nat) (sender receiver : Account) (note : Bytes)
    (is_last_chunk : Bool) : PayTxn :=
  makePaymentTransaction params sender receiver note 0 is_last_chunk

/-- The data transactions `Blocknote.start` builds from a content buffer:
one per chunk, the last one closing the receiver to the sender. -/
def dataTransactions (params : Nat) (sender receiver : Account)
    (content : Bytes) : List PayTxn :=
  (buildChunks content 0).map
    (fun ch => buildTransaction params sender receiver ch.note ch.isLast)

/-- The metadata title: a plain string, or the `iv`/`tag`/`data` object that
replaces it after AEAD encryption of the title. -/
inductive TitleVal where
  | plain (s : String)
  | enc (iv tag data : Bytes)
deriving DecidableEq

/-- The payload-metadata record (`this.payload`) carried JSON-encoded in the
metadata transaction note; the JSON serialization itself is not modelled,
and base64 fields are held as their raw bytes. -/
structure Payload where
  title : TitleVal
  mime : String
  size : Nat
  addid : Nat
  accid : Nat
  compression : Option String
  salt : Option Bytes
  iv : Option Bytes
  tag : Option Bytes
  txns : Nat
deriving DecidableEq

/-- The metadata transaction built by `buildPayloadTransaction`; its note
carries the JSON-encoded payload record, abstracted as the record itself. -/
structure MetaTxn where
  params : Nat
  sender : String
  receiver : String
  amount : Nat
  payload : Payload
deriving DecidableEq

/-- `buildPayloadTransaction` of the chain adapter (amount 0.1 ALGO in
microalgos). -/
def buildPayloadTransaction (params : Nat) (sender receiver : Account)
    (payload : Payload) : MetaTxn :=
  { params := params, sender := sender.addr, receiver := receiver.addr,
    amount := 100000, payload := payload }

/-- A raw input value as accepted by the writer and the codecs: a JS string,
a `Uint8Array` (also covering Node `Buffer` views), or an `ArrayBuffer`. -/
inductive JSInput where
  | str (s : String)
  | uint8 (bytes : Bytes)
  | arrayBuffer (bytes : Bytes)
deriving DecidableEq

/-- UTF-8 encoding of a string (`TextEncoder.encode`, `Buffer.from(string)`). -/
def utf8Bytes (s : String) : Bytes :=
  s.toUTF8.data.toList.map (fun b => b.toNat)

/-- The comma used by JS `Array.prototype.toString`. -/
def commaString : String := ","

/-- JS `toString()` on the inputs above: a string is itself, a `Uint8Array`
stringifies to the comma-joined decimals of its entries, an `ArrayBuffer`
to its object tag (that branch is unreachable in the embedded code). -/
def jsToString : JSInput → String
  | .str s => s
  | .uint8 bytes => String.intercalate commaString (bytes.map (fun b => toString b))
  | .arrayBuffer _ => String.intercalate commaString []

/-- The bytes a raw payload value denotes, i.e. what a faithful write/read
round-trip must return: UTF-8 for strings, the raw bytes for buffers. -/
def rawBytes : JSInput → Bytes
  | .str s => utf8Bytes s
  | .uint8 bytes => bytes
  | .arrayBuffer bytes => bytes

/-- JS `.length` of the raw input: character count for strings, byte length
for buffers. -/
def jsInputLength : JSInput → Nat
  | .str s => s.length
  | .uint8 bytes => bytes.length
  | .arrayBuffer bytes => bytes.length

/-- The `none` codec `compress`: only an `ArrayBuffer` instance passes through
as its bytes; every other input (strings, but also `Uint8Array`/`Buffer`,
which are not `instanceof ArrayBuffer`) is `toString()`ed and UTF-8 encoded
by `TextEncoder`. -/
def noneCompress (input : JSInput) : Bytes :=
  match input with
  | .arrayBuffer bytes => bytes
  | _ => utf8Bytes (jsToString input)

/-- The `none` codec `uncompress`: returns its input unchanged. -/
def noneUncompress (compressed_input : Bytes) : Bytes := compressed_input

/-- A registered compression codec's writer surface. -/
structure Codec where
  name : String
  compress : JSInput → Bytes

/-- The `none` codec as registered. -/
def noneCodec : Codec :=
  { name := "none", compress := noneCompress }

/-- Key material; AES keys are byte strings. -/
abbrev Key := Bytes

/-- The AEAD surface of the crypto module (`Crypto.encrypt`, `Crypto.decrypt`,
`Crypto.deriveKey`), kept abstract: AES-256-GCM and PBKDF2 are external
primitives.  `encrypt` returns `(iv, tag, data)`; its random nonce makes the
whole function a parameter of the development. -/
structure CryptoModel where
  encrypt : Bytes → Key → Bytes × Bytes × Bytes
  decrypt : Bytes → Bytes → Bytes → Key → Bytes
  deriveKey : String → Bytes → Key

/-- The writer's encryption configuration: none, a raw `aes_key`, or a
`password` (from which a key is derived; when both are given the source
ignores the password). -/
inductive EncMode where
  | plain
  | key (k : Key)
  | password (pw : String)

/-- The result of a `Blocknote.save` run up to (but not including) network
submission: the final metadata record, the metadata transaction, and the
data transactions in build order. -/
structure SaveResult where
  payload : Payload
  metaTxn : MetaTxn
  dataTxns : List PayTxn

/-- `Blocknote.save` composed with the transaction building of
`Blocknote.start`: compress, optionally derive a key from the password
(recording the salt), optionally AEAD-encrypt the content (recording iv and
tag) and the title, chunk the content, and build the metadata and data
transactions.  `salt` stands for the random PBKDF2 salt. -/
def blocknoteSave (codec : Codec) (crypto : CryptoModel) (mode : EncMode)
    (salt : Bytes) (params : Nat) (sender receiver : Account)
    (addid accid : Nat) (title mime : String) (encrypt_title : Bool)
    (raw_content : JSInput) : SaveResult :=
  let compressed := codec.compress raw_content
  let payload0 : Payload :=
    { title := .plain title, mime := mime, size := jsInputLength raw_content,
      addid := addid, accid := accid,
      compression := if codec.name = "none" then none else some codec.name,
      salt := none, iv := none, tag := none, txns := 0 }
  let withKey : Payload × Option Key :=
    match mode with
    | .plain => (payload0, none)
    | .key k => (payload0, some k)
    | .password pw =>
        ({ payload0 with salt := some salt }, some (crypto.deriveKey pw salt))
  let withEnc : Payload × Bytes :=
    match withKey.2 with
    | none => (withKey.1, compressed)
    | some k =>
        let e := crypto.encrypt compressed k
        let p1 := { withKey.1 with iv := some e.1, tag := some e.2.1 }
        let et := crypto.encrypt (utf8Bytes title) k
        let p2 := { p1 with
          title := if encrypt_title then TitleVal.enc et.1 et.2.1 et.2.2
            else p1.title }
        (p2, e.2.2)
  let dataTxns := dataTransactions params sender receiver withEnc.2
  let payloadFinal := { withEnc.1 with txns := dataTxns.length }
  { payload := payloadFinal,
    metaTxn := buildPayloadTransaction params sender receiver payloadFinal,
    dataTxns := dataTxns }

/-- One network submission performed by `Blocknote.start`. -/
inductive SubmitEvent where
  | meta (txn : MetaTxn)
  | data (txn : PayTxn)
deriving DecidableEq

/-- The submission sequence of `Blocknote.start`: when simulating nothing is
submitted; otherwise the metadata transaction goes first, then the built data
transactions with the popped last one (`transactions.pop()`) moved to the
end. -/
def startSubmissions (is_simulation : Bool) (params : Nat)
    (sender receiver : Account) (payload : Payload) (content : Bytes) :
    List SubmitEvent :=
  if is_simulation then []
  else
    let transactions := dataTransactions params sender receiver content
    .meta (buildPayloadTransaction params sender receiver payload) ::
      (transactions.dropLast.map .data ++
        (match transactions.getLast? with
         | some t => [.data t]
         | none => []))

/-- A JS runtime failure or one of the reader's thrown errors. -/
inductive JsError where
  | typeError (msg : String)
  | missingKey
  | missingPassword
deriving DecidableEq

/-- The message of the `TypeError` raised by reading `.note` of `undefined`. -/
def undefinedNoteMsg : String := "cannot read properties of undefined: note"

/-- The message of the `TypeError` raised by iterating a sparse-array hole. -/
def arrayHoleMsg : String := "cannot iterate an undefined array hole"

/-- The sparse JS array filled by `getChunksOrderedByCounter`
(`compressed_chunks[counter] = note.slice(4)`). -/
structure SparseArr where
  len : Nat
  get : Nat → Option Bytes

def SparseArr.empty : SparseArr := ⟨0, fun _ => none⟩

/-- JS `arr[i] = v`: fill the slot, extending the array length. -/
def SparseArr.setAt (a : SparseArr) (i : Nat) (v : Bytes) : SparseArr :=
  ⟨max a.len (i + 1), fun j => if j = i then some v else a.get j⟩

/-- `BlocknoteReader.getChunksOrderedByCounter` over the (possibly
`undefined`) transactions the reader collected: decode the first four note
bytes as the little-endian counter and place the remaining bytes at that
index; reading `.note` of `undefined` raises a `TypeError`. -/
def getChunksOrderedByCounter (transactions : List (Option PayTxn)) :
    Except JsError SparseArr :=
  transactions.foldlM
    (fun arr t =>
      match t with
      | none => .error (.typeError undefinedNoteMsg)
      | some txn =>
          .ok (arr.setAt (le32decode (txn.note.take 4)) (txn.note.drop 4)))
    SparseArr.empty

/-- `BlocknoteReader.consolidate`: order the chunks by counter and
concatenate them into one buffer; iterating a hole of the sparse array
(an `undefined` entry) raises in the JS code. -/
def consolidate (transactions : List (Option PayTxn)) : Except JsError Bytes := do
  let arr ← getChunksOrderedByCounter transactions
  let chunks ← (List.range arr.len).mapM
    (fun i =>
      match arr.get i with
      | none => Except.error (JsError.typeError arrayHoleMsg)
      | some chunk => Except.ok chunk)
  return chunks.flatten

/-- The reader options that matter to the embedded paths. -/
structure ReadOpts where
  aes_key : Option Key
  password : Option String
  return_raw : Bool

/-- `BlocknoteReader.decrypt`: with a salt in the metadata a password is
required and the key is derived from it; otherwise the caller must supply
the AES key directly. -/
def readerDecrypt (crypto : CryptoModel) (content : Bytes) (payload : Payload)
    (aes_key : Option Key) (password : Option String) : Except JsError Bytes :=
  if payload.salt.isSome then
    match password with
    | none => .error .missingPassword
    | some pw =>
        .ok (crypto.decrypt (payload.iv.getD []) (payload.tag.getD []) content
          (crypto.deriveKey pw (payload.salt.getD [])))
  else
    match aes_key with
    | none => .error .missingKey
    | some k =>
        .ok (crypto.decrypt (payload.iv.getD []) (payload.tag.getD []) content k)

/-- `BlocknoteReader.read` after payload resolution: collect the first
`payload.txns` search results (out-of-range JS indexing yields `undefined`),
consolidate them by counter, optionally decrypt, then decompress through the
codec registry (`reg` dispatches a codec name to its `uncompress`; the
registry module itself is not among the sources, the `none` codec is). -/
def blocknoteRead (crypto : CryptoModel) (reg : String → Bytes → Bytes)
    (payload : Payload) (all_transactions : List PayTxn) (opts : ReadOpts) :
    Except JsError (Payload × Bytes) := do
  let transactions := (List.range payload.txns).map
    (fun x => all_transactions.get? x)
  let content0 ← consolidate transactions
  let content1 ←
    if payload.iv.isSome && !opts.return_raw then
      readerDecrypt crypto content0 payload opts.aes_key opts.password
    else pure content0
  let content2 :=
    if !opts.return_raw then reg (payload.compression.getD noneCodec.name) content1
    else content1
  return (payload, content2)

/-- The codec registry's `uncompress` dispatch restricted to the `none`
codec, the only codec whose module is among the sources. -/
def noneOnlyRegistry : String → Bytes → Bytes := fun _ => noneUncompress

/-- A parsed JSON value, as produced by `JSON.parse`. -/
inductive Json where
  | null
  | bool (b : Bool)
  | num (n : Int)
  | str (s : String)
  | arr (elems : List Json)
  | obj (fields : List (String × Json))

/-- The JSON key of a revision tag. -/
def revisionKey : String := "revision"

/-- The JSON key probed by a JS `.length` access on a plain object. -/
def lengthKey : String := "length"

/-- JS truthiness of a parsed JSON value. -/
def jsTruthy : Json → Bool
  | .null => false
  | .bool b => b
  | .num n => n != 0
  | .str s => s.length != 0
  | .arr _ => true
  | .obj _ => true

/-- JS `x.length === 52` on a parsed JSON value: strings and arrays have a
length, a plain object only through an own "length" field, and on anything
else `undefined === 52` is false. -/
def jsLengthEq52 : Json → Bool
  | .str s => s.length == 52
  | .arr l => l.length == 52
  | .obj fields =>
      match fields.lookup lengthKey with
      | some (.num n) => n == 52
      | _ => false
  | _ => false

/-- JS `note?.revision`. -/
def jsGetRevision : Json → Option Json
  | .obj fields => fields.lookup revisionKey
  | _ => none

/-- JS `Object.entries(x).length`. -/
def jsEntriesLength : Json → Nat
  | .obj fields => fields.length
  | .str s => s.length
  | .arr l => l.length
  | _ => 0

/-- `Search.getRevisionPayloadTransactionId` on the parsed note; `none`
stands for a missing note or a note `JSON.parse` throws on.  The source's
final conjunct `Object.entries(note)[0].length === 2` is vacuously true
whenever the entries list is nonempty (an entries pair always has length
two), so it does not appear. -/
def getRevisionPayloadTransactionId (parsed_note : Option Json) : Option Json :=
  match parsed_note with
  | none => none
  | some note =>
      let is_valid :=
        (match jsGetRevision note with
         | some r => jsTruthy r && jsLengthEq52 r
         | none => false)
        && jsEntriesLength note == 1
      if is_valid then jsGetRevision note else none

/-- Following the spec's words: a note counts as a revision tag iff it parses
as a JSON object with exactly one key, that key is "revision", and its value
has length 52. -/
def specRevisionValid (parsed_note : Option Json) : Bool :=
  match parsed_note with
  | some (.obj [(k, v)]) => k == revisionKey && jsLengthEq52 v
  | _ => false

/-- A payment transaction as returned by the indexer search; the note field
is held as the bytes its base64 denotes. -/
structure SearchTxn where
  sender : String
  receiver : String
  note : Bytes
deriving DecidableEq

/-- JS strict equality between a `Buffer` object and a string primitive:
`===` never equates values of different types without coercion, so the
comparison is constantly false. -/
def bufferStrictEqString (_buf : Bytes) (_s : String) : Bool := false

/-- The stop marker of a streamnote session. -/
def stopMarker : String := "stop"

/-- `Search.isStreamOver`: scan the receiver's received payment transactions
for one whose sender is the receiver itself and whose decoded note buffer is
`===`-compared with the string "stop"; pagination is collapsed into one
transaction list. -/
def isStreamOver (receiver : String) (received : List SearchTxn) : Bool :=
  ((received.filter
      (fun t => t.sender == receiver && bufferStrictEqString t.note stopMarker)).head?).isSome

/-- Outcome of one `Chain.sendTransaction` submit-and-confirm round. -/
inductive SubmitOutcome where
  | executed
  | failed (msg : String)
deriving DecidableEq

/-- What `Blocknote.sendTransactions` decides to do with one transaction
result: record its fee as a success, retry the same signed bytes, or rebuild
the transaction. -/
inductive RetryAction where
  | recordFee
  | retry
  | rebuild
deriving DecidableEq

/-- The error text the sender treats as success. -/
def ledgerPhrase : String := "transaction already in ledger"

/-- `error.toString().indexOf("transaction already in ledger") !== -1`. -/
def mentionsAlreadyInLedger (msg : String) : Bool :=
  decide (List.IsInfix ledgerPhrase.toList msg.toList)

/-- The decision `Blocknote.sendTransactions` takes for one transaction
result given the per-id retry counter (`this.retry_failed_transaction` is the
threshold, 25 in the source). -/
def retryDecision (retry_failed_transaction counter : Nat) (r : SubmitOutcome) :
    RetryAction :=
  match r with
  | .executed => .recordFee
  | .failed msg =>
      if mentionsAlreadyInLedger msg then .recordFee
      else if counter > retry_failed_transaction then .rebuild
      else .retry

/-- The per-transaction retry loop of `sendTransactions`, followed outcome by
outcome: a retry increments the per-id counter, a rebuild deletes it (the
rebuilt transaction has a fresh id, so its counter restarts at zero), and a
recorded success leaves the loop (no further outcomes arrive for that id). -/
def retryTrace (retry_failed_transaction : Nat) :
    Nat → List SubmitOutcome → List RetryAction
  | _, [] => []
  | c, r :: rs =>
      let a := retryDecision retry_failed_transaction c r
      a :: retryTrace retry_failed_transaction
        (match a with
         | .retry => c + 1
         | .rebuild => 0
         | .recordFee => c) rs

/-- The transaction rebuild of `sendTransactions`: the same note, fresh
suggested params, and the close flag recovered from `closeRemainderTo`. -/
def rebuildTransaction (fresh_params : Nat) (sender receiver : Account)
    (t : PayTxn) : PayTxn :=
  buildTransaction fresh_params sender receiver t.note t.closeRemainderTo.isSome

/-- The streamnote reader's mutable state: the seek counter and the chunk
buffer ordered by counter. -/
structure SnrState where
  consolidate_seek : Nat
  content_chunks : List (Nat × Bytes)
deriving DecidableEq

/-- JS `Map.has`. -/
def hasKey (m : List (Nat × Bytes)) (k : Nat) : Bool :=
  (m.lookup k).isSome

/-- JS `Map.set` on an association list: overwrite the key if present, else
append. -/
def assocSet (m : List (Nat × Bytes)) (k : Nat) (v : Bytes) :
    List (Nat × Bytes) :=
  match m with
  | [] => [(k, v)]
  | kv :: rest => if kv.1 = k then (k, v) :: rest else kv :: assocSet rest k v

/-- One insertion step of `[...entries].sort((a, b) => a[0] - b[0])`. -/
def insertByKey (kv : Nat × Bytes) : List (Nat × Bytes) → List (Nat × Bytes)
  | [] => [kv]
  | kv2 :: rest =>
      if kv.1 ≤ kv2.1 then kv :: kv2 :: rest else kv2 :: insertByKey kv rest

/-- Sorting the merged chunk entries by counter. -/
def sortByKey (m : List (Nat × Bytes)) : List (Nat × Bytes) :=
  m.foldr insertByKey []

/-- `StreamnoteReader.updateContentChunks`: skip chunks already held or with
a counter below the seek (already emitted), collect the rest in a batch map,
then merge with the held chunks and re-sort by counter. -/
def updateContentChunks (st : SnrState) (batch : List (Nat × Bytes)) : SnrState :=
  let fresh := batch.foldl
    (fun acc kv =>
      if hasKey st.content_chunks kv.1 || decide (kv.1 < st.consolidate_seek) then
        acc
      else assocSet acc kv.1 kv.2)
    []
  if fresh.isEmpty then st
  else { st with content_chunks := sortByKey (st.content_chunks ++ fresh) }

/-- JS `Map.delete` on an association list with unique keys. -/
def eraseKey (m : List (Nat × Bytes)) (k : Nat) : List (Nat × Bytes) :=
  match m with
  | [] => []
  | kv :: rest => if kv.1 = k then rest else kv :: eraseKey rest k

/-- One bounded unfolding of the
`while (this.content_chunks.has(this.consolidate_seek))` loop of
`consolidateContent`: emit the chunk at the seek, advance, and continue; the
pruning of emitted keys is fused into the recursion.  Returns the emitted
`(counter, chunk)` run in order together with the remaining buffer.  `fuel`
only bounds the recursion depth (each step erases one held key, so
`m.length + 1` steps always suffice); the zero-fuel branch is unreachable
from `emitRun`. -/
def emitRunFuel : Nat → List (Nat × Bytes) → Nat →
    List (Nat × Bytes) × List (Nat × Bytes)
  | 0, m, _ => ([], m)
  | fuel + 1, m, s =>
    match m.lookup s with
    | none => ([], m)
    | some v =>
        let found := emitRunFuel fuel (eraseKey m s) (s + 1)
        ((s, v) :: found.1, found.2)

/-- The emission loop of `consolidateContent`. -/
def emitRun (m : List (Nat × Bytes)) (s : Nat) :
    List (Nat × Bytes) × List (Nat × Bytes) :=
  emitRunFuel (m.length + 1) m s

/-- `StreamnoteReader.consolidateContent`: on an empty buffer nothing is
emitted; if the seek is unset (0) it starts at the first held counter; the
contiguous run from the seek is emitted in order through `on_data`, the seek
advances past it, and the emitted keys are pruned. -/
def consolidateContent (st : SnrState) : SnrState × List (Nat × Bytes) :=
  if st.content_chunks.isEmpty then (st, [])
  else
    let seek0 := if st.consolidate_seek = 0 then
        ((st.content_chunks.head?.map Prod.fst).getD 0)
      else st.consolidate_seek
    let run := emitRun st.content_chunks seek0
    ({ consolidate_seek := seek0 + run.1.length, content_chunks := run.2 }, run.1)

/-- One interaction of the streamnote reader's polling loop: a batch of
decoded chunks folded in by `updateContentChunks`, or a consolidation pass. -/
inductive ReaderOp where
  | deliver (batch : List (Nat × Bytes))
  | consolidate

/-- Run the reader over a sequence of interactions, collecting everything
emitted through `on_data` in order. -/
def runReader : SnrState → List ReaderOp → SnrState × List (Nat × Bytes)
  | st, [] => (st, [])
  | st, .deliver batch :: ops => runReader (updateContentChunks st batch) ops
  | st, .consolidate :: ops =>
      let step := consolidateContent st
      let rest := runReader step.1 ops
      (rest.1, step.2 ++ rest.2)

/-- The reader's initial state: seek unset, no chunks. -/
def initialReader : SnrState := ⟨0, []⟩

/-- JS `str.slice(0, e)` on a character buffer, with the negative-end
semantics (an end below zero counts from the end of the string). -/
def jsSliceTo (l : List Char) (e : Int) : List Char :=
  if e < 0 then l.take (l.length - e.natAbs) else l.take e.toNat

/-- JS `str.slice(s)` on a character buffer, with the negative-start
semantics. -/
def jsSliceFrom (l : List Char) (s : Int) : List Char :=
  if s < 0 then l.drop (l.length - s.natAbs) else l.drop s.toNat

/-- The streamnote writer's processor state: the rolling content buffer, the
adaptive padding, the chunk counter, the stall tracker (last candidate hash
and the timestamp its hash stopped changing), the stop flag, and the
outbound transaction queue (as the queued note payloads). -/
structure SnState where
  content : List Char
  extra_padding : Nat
  counter : Nat
  last_hash_compressed_chunk : Option String
  ts_same_hash : Option Nat
  stop_requested : Bool
  transactions_queue : List Bytes
deriving DecidableEq

/-- The extra padding growth step (`this.extra_padding_size`). -/
def extra_padding_size : Nat := 50

/-- The stall timeout (`this.note_max_size_not_reached_timeout`). -/
def note_max_size_not_reached_timeout : Nat := 15000

/-- The padding-reduction loop of `Streamnote.process`
(`while compressed_chunk.length > this.note_max_size`): decrement the
padding and recompress; `fuel` bounds the search and `none` stands for the
loop never terminating. -/
def reducePadding (compressFn : List Char → Nat → Bytes) (content : List Char)
    (counter : Nat) (note_max : Nat) (fuel : Nat) (pad : Int) (comp : Bytes) :
    Option (Int × Bytes) :=
  if comp.length ≤ note_max then some (pad, comp)
  else
    match fuel with
    | 0 => none
    | f + 1 =>
        reducePadding compressFn content counter note_max f (pad - 1)
          (compressFn (jsSliceTo content ((note_max : Int) + (pad - 1))) counter)

/-- The candidate chunk `Streamnote.process` builds each step:
`this.compress(content.slice(0, 1024 + padding), counter)`, where
`compressFn` stands for `Streamnote.compress` (codec compression, optional
stream encryption and the counter prefix, all computed outside this
module). -/
def snCandidate (compressFn : List Char → Nat → Bytes) (s : SnState) : Bytes :=
  compressFn (jsSliceTo s.content ((note_max_size : Int) + s.extra_padding)) s.counter

/-- One `Streamnote.process` step.  `compressFn` stands for
`Streamnote.compress`, `hashFn` for `Crypto.sha256` (hex), and `now` for
`Date.now()`.  The step speculatively compresses the candidate, tracks hash
stability, tries a single final transaction when a stop was requested, grows
the padding (flushing on a long stall) when the candidate is under the note
limit, and otherwise shrinks the padding until the candidate fits, consumes
the buffer and enqueues.  `none` stands for the padding-reduction loop never
terminating. -/
def snProcess (compressFn : List Char → Nat → Bytes) (hashFn : Bytes → String)
    (now : Nat) (s : SnState) : Option SnState :=
  if s.content.length = 0 then some s
  else
    let compressed_chunk := snCandidate compressFn s
    let hash_compressed_chunk := hashFn compressed_chunk
    let same_chunk_than_previous :=
      s.last_hash_compressed_chunk = some hash_compressed_chunk
    let s1 : SnState :=
      if ¬same_chunk_than_previous then
        { s with last_hash_compressed_chunk := some hash_compressed_chunk,
                 ts_same_hash := none }
      else if s.ts_same_hash = none then { s with ts_same_hash := some now }
      else s
    let after_stop : Option SnState :=
      if s1.stop_requested then
        let compressed_remaining := compressFn s1.content s1.counter
        if compressed_remaining.length ≤ note_max_size then
          some { s1 with
                 transactions_queue := s1.transactions_queue ++ [compressed_remaining],
                 content := [] }
        else none
      else none
    match after_stop with
    | some s2 => some s2
    | none =>
        if compressed_chunk.length < note_max_size then
          let s2 := { s1 with extra_padding := s1.extra_padding + extra_padding_size }
          match s2.ts_same_hash with
          | some t =>
              if t ≠ 0 ∧ now - t > note_max_size_not_reached_timeout then
                some { s2 with
                       content := [],
                       extra_padding := 0,
                       ts_same_hash := none,
                       last_hash_compressed_chunk := none,
                       transactions_queue := s2.transactions_queue ++ [compressed_chunk],
                       counter := s2.counter + 1 }
              else some s2
          | none => some s2
        else
          match reducePadding compressFn s1.content s1.counter note_max_size
              (s1.extra_padding + note_max_size + s1.content.length)
              s1.extra_padding compressed_chunk with
          | none => none
          | some (smaller_padding, comp) =>
              some { s1 with
                     content := jsSliceFrom s1.content ((note_max_size : Int) + smaller_padding),
                     extra_padding := 0,
                     transactions_queue := s1.transactions_queue ++ [comp],
                     counter := s1.counter + 1 }

/-- A concrete sender account for concrete evaluations. -/
def senderAccount : Account := { addr := "SENDER" }

/-- A concrete receiver account for concrete evaluations. -/
def receiverAccount : Account := { addr := "RECEIVER" }

/-- A degenerate instantiation of the crypto surface, used where the
evaluated path performs no cryptography. -/
def trivialCrypto : CryptoModel :=
  { encrypt := fun data _ => ([], [], data),
    decrypt := fun _ _ data _ => data,
    deriveKey := fun _ _ => [] }

/-- Reader options: no key, no password, full decode. -/
def plainReadOpts : ReadOpts :=
  { aes_key := none, password := none, return_raw := false }

/-- A concrete streamnote compress function: the character codes of the
slice (its output length equals the input length, far below 1024). -/
def charCodesCompress : List Char → Nat → Bytes :=
  fun content _ => content.map Char.toNat

/-- A concrete stand-in for the sha256 hex digest: the decimal length of the
buffer (collisions are irrelevant to the evaluated paths). -/
def lengthHash : Bytes → String := fun b => toString b.length

/-- A processor state stalled on the candidate built from the single
character buffer: its hash is tracked and first went stable at time 1. -/
def stallState : SnState :=
  { content := ['a'], extra_padding := 0, counter := 0,
    last_hash_compressed_chunk := some (lengthHash (charCodesCompress ['a'] 0)),
    ts_same_hash := some 1, stop_requested := false, transactions_queue := [] }

/-- A received transaction carrying the literal stop note, self-sent by the
receiver: exactly the shape the stream-end detection looks for. -/
def stopNoteTxn : SearchTxn :=
  { sender := receiverAccount.addr, receiver := receiverAccount.addr,
    note := utf8Bytes stopMarker }

/-- The writer's default title. -/
def untitled : String := "untitled"

/-- A submission error message unrelated to the ledger-duplicate phrase. -/
def genericNetworkError : String := "fetch failed"

/-- The writer's default MIME type. -/
def textPlain : String := "text/plain"

/-- The reader options matching a writer's encryption configuration: the
same key, or the same password. -/
def matchingOpts : EncMode → ReadOpts
  | .plain => { aes_key := none, password := none, return_raw := false }
  | .key k => { aes_key := some k, password := none, return_raw := false }
  | .password pw => { aes_key := none, password := some pw, return_raw := false }

/-- A complete non-simulated save of the `Uint8Array` payload `[104, 105]`
with the `none` codec and no encryption. -/
def roundtripSample : SaveResult :=
  blocknoteSave noneCodec trivialCrypto .plain [] 0 senderAccount
    receiverAccount 3 7 untitled textPlain false (.uint8 [104, 105])

/-- A metadata record announcing two data transactions, used to exercise the
reader with fewer search results than `payload.txns`. -/
def twoChunkPayload : Payload :=
  { title := TitleVal.plain untitled, mime := textPlain,
    size := 0, addid := 0, accid := 0, compression := none, salt := none,
    iv := none, tag := none, txns := 2 }

/-! ## Lemmas about the little-endian counter and the chunk builder -/

theorem le32encode_length (n : Nat) : (le32encode n).length = 4 := rfl

theorem le32decode_encode_append (n : Nat) (r : Bytes) :
    le32decode (le32encode n ++ r) = n % 4294967296 := by
  have h : le32decode (le32encode n ++ r)
      = n % 256 + n / 256 % 256 * 256 + n / 65536 % 256 * 65536
        + n / 16777216 % 256 * 16777216 := rfl
  rw [h]
  omega

theorem le32decode_encode_append_of_lt (n : Nat) (r : Bytes) (h : n < 4294967296) :
    le32decode (le32encode n ++ r) = n := by
  rw [le32decode_encode_append, Nat.mod_eq_of_lt h]

theorem take4_encode_append (n : Nat) (r : Bytes) :
    (le32encode n ++ r).take 4 = le32encode n := by
  rw [List.take_append_eq_append_take]
  rw [List.take_of_length_le (by rw [le32encode_length])]
  rw [le32encode_length]
  simp

theorem drop4_encode_append (n : Nat) (r : Bytes) :
    (le32encode n ++ r).drop 4 = r := by
  rw [List.drop_append_eq_append_drop]
  rw [List.drop_eq_nil_of_le (by rw [le32encode_length])]
  rw [le32encode_length]
  simp

theorem prepend_take (content : Bytes) (c : Nat) :
    (prependCounterToContent content c).take note_max_size
      = le32encode c ++ content.take 1020 := by
  show (le32encode c ++ content).take 1024 = _
  rw [List.take_append_eq_append_take]
  rw [List.take_of_length_le (by rw [le32encode_length]; omega)]
  rw [le32encode_length]

theorem prepend_drop (content : Bytes) (c : Nat) :
    (prependCounterToContent content c).drop note_max_size = content.drop 1020 := by
  show (le32encode c ++ content).drop 1024 = _
  rw [List.drop_append_eq_append_drop]
  rw [List.drop_eq_nil_of_le (by rw [le32encode_length]; omega)]
  rw [le32encode_length]
  simp

theorem prepend_drop_length (content : Bytes) (c : Nat) :
    ((prependCounterToContent content c).drop note_max_size).length
      = content.length - 1020 := by
  rw [List.length_drop, prependCounterToContent, List.length_append, le32encode_length]
  show 4 + content.length - 1024 = content.length - 1020
  omega

theorem buildChunksFuel_congr (fuel₁ : Nat) :
    ∀ (fuel₂ : Nat) (content : Bytes) (counter : Nat),
      content.length < fuel₁ → content.length < fuel₂ →
      buildChunksFuel fuel₁ content counter = buildChunksFuel fuel₂ content counter := by
  induction fuel₁ with
  | zero => intro fuel₂ content counter h1 _; omega
  | succ f ih =>
      intro fuel₂ content counter h1 h2
      match fuel₂, h2 with
      | g + 1, h2 =>
        simp only [buildChunksFuel]
        by_cases hc : ((prependCounterToContent content counter).drop note_max_size).length = 0
        · rw [if_pos hc, if_pos hc]
        · rw [if_neg hc, if_neg hc]
          have hrest := prepend_drop_length content counter
          congr 1
          apply ih
          · omega
          · omega

theorem buildChunks_unfold (content : Bytes) (counter : Nat) :
    buildChunks content counter =
      if ((prependCounterToContent content counter).drop note_max_size).length = 0 then
        [⟨(prependCounterToContent content counter).take note_max_size, true⟩]
      else
        ⟨(prependCounterToContent content counter).take note_max_size, false⟩ ::
          buildChunks ((prependCounterToContent content counter).drop note_max_size)
            (counter + 1) := by
  show buildChunksFuel (content.length + 1) content counter = _
  simp only [buildChunksFuel]
  by_cases hc : ((prependCounterToContent content counter).drop note_max_size).length = 0
  · rw [if_pos hc, if_pos hc]
  · rw [if_neg hc, if_neg hc]
    have hrest := prepend_drop_length content counter
    congr 1
    apply buildChunksFuel_congr
    · omega
    · omega

theorem numChunks_pos (content : Bytes) : 1 ≤ numChunks content := by
  rw [numChunks]
  split
  · exact Nat.le_refl 1
  · exact Nat.le_add_left 1 _

theorem numChunks_of_le (content : Bytes) (h : content.length ≤ 1020) :
    numChunks content = 1 := by
  rw [numChunks, if_pos h]

theorem numChunks_of_gt (content : Bytes) (h : 1020 < content.length) :
    numChunks content = numChunks (content.drop 1020) + 1 := by
  rw [numChunks, if_neg (by omega)]

/-- Structure of the chunk list: the chunk of index `i` carries the
little-endian counter `c + i` followed by the `i`-th 1020-byte content
slice, and only the final chunk is flagged as last. -/
theorem buildChunks_eq (content : Bytes) (c : Nat) :
    buildChunks content c =
      (List.range (numChunks content)).map
        (fun i => ⟨le32encode (c + i) ++ chunkData content i,
                   decide (i + 1 = numChunks content)⟩) := by
  rw [buildChunks_unfold]
  by_cases h : content.length ≤ 1020
  · rw [if_pos (by rw [prepend_drop_length]; omega)]
    rw [numChunks_of_le content h]
    have hr : List.range 1 = [0] := rfl
    rw [hr, List.map_cons, List.map_nil, prepend_take]
    have ht : content.take 1020 = content := List.take_of_length_le h
    simp [chunkData, ht]
  · rw [if_neg (by rw [prepend_drop_length]; omega)]
    rw [prepend_drop, prepend_take]
    rw [buildChunks_eq (content.drop 1020) (c + 1)]
    rw [numChunks_of_gt content (by omega)]
    rw [List.range_succ_eq_map]
    rw [List.map_cons, List.map_map]
    have hm := numChunks_pos (content.drop 1020)
    congr 1
    · have h0 : chunkData content 0 = content.take 1020 := by
        simp [chunkData]
      have hd : decide ((0 : Nat) + 1 = numChunks (content.drop 1020) + 1) = false := by
        rw [decide_eq_false_iff_not]
        omega
      rw [h0, hd]
      simp
    · apply List.map_congr_left
      intro i _
      simp only [Function.comp_apply, Nat.succ_eq_add_one]
      have hnote : chunkData (content.drop 1020) i = chunkData content (i + 1) := by
        simp only [chunkData, List.drop_drop]
        have harith : 1020 + 1020 * i = 1020 * (i + 1) := by ring
        rw [harith]
      have hcnt : c + 1 + i = c + (i + 1) := by omega
      have hlast : decide (i + 1 = numChunks (content.drop 1020))
          = decide (i + 1 + 1 = numChunks (content.drop 1020) + 1) := by
        rw [decide_eq_decide]
        omega
      rw [hnote, hcnt, hlast]
termination_by content.length
decreasing_by
  simp only [List.length_drop]
  omega

theorem buildTransaction_note (p : Nat) (s r : Account) (note : Bytes) (b : Bool) :
    (buildTransaction p s r note b).note = note := by
  cases b <;> rfl

theorem buildTransaction_close (p : Nat) (s r : Account) (note : Bytes) :
    (buildTransaction p s r note true).closeRemainderTo = some s.addr := rfl

theorem buildTransaction_noclose (p : Nat) (s r : Account) (note : Bytes) :
    (buildTransaction p s r note false).closeRemainderTo = none := rfl

/-- Structure of the built data transactions: one per chunk index, carrying
the counter-prefixed slice, the last one flagged to close. -/
theorem dataTransactions_eq (params : Nat) (sender receiver : Account)
    (content : Bytes) :
    dataTransactions params sender receiver content
      = (List.range (numChunks content)).map
          (fun i => buildTransaction params sender receiver
              (le32encode i ++ chunkData content i)
              (decide (i + 1 = numChunks content))) := by
  rw [dataTransactions, buildChunks_eq, List.map_map]
  apply List.map_congr_left
  intro i _
  simp

theorem dataTransactions_length (params : Nat) (sender receiver : Account)
    (content : Bytes) :
    (dataTransactions params sender receiver content).length
      = numChunks content := by
  rw [dataTransactions_eq, List.length_map, List.length_range]

/-- C2: chunking invariants of one blocknote payload.  For the data
transactions built from any content buffer (`payload.txns` is set to their
count): every note is at most 1024 bytes long; the 4-byte little-endian
counters read back from the notes are exactly `0, 1, …, txns-1` in order
(hence no duplicates); exactly one data transaction carries
`close_remainder_to` equal to the sender, and it is the one with the largest
counter.  The bound keeps the decoded 32-bit counters faithful. -/
theorem blocknote_chunking_invariants (content : Bytes) (params : Nat)
    (sender receiver : Account)
    (hbound : (dataTransactions params sender receiver content).length ≤ 4294967296) :
    (∀ t ∈ dataTransactions params sender receiver content, t.note.length ≤ 1024)
    ∧ (dataTransactions params sender receiver content).map
        (fun t => le32decode (t.note.take 4))
        = List.range (dataTransactions params sender receiver content).length
    ∧ (dataTransactions params sender receiver content).countP
        (fun t => t.closeRemainderTo == some sender.addr) = 1
    ∧ ∃ tlast,
        (dataTransactions params sender receiver content).getLast? = some tlast
        ∧ tlast.closeRemainderTo = some sender.addr
        ∧ le32decode (tlast.note.take 4)
            = (dataTransactions params sender receiver content).length - 1 := by
  have hlen := dataTransactions_length params sender receiver content
  rw [hlen] at hbound
  have hpos := numChunks_pos content
  obtain ⟨m, hm⟩ : ∃ m, numChunks content = m + 1 :=
    ⟨numChunks content - 1, by omega⟩
  refine ⟨?_, ?_, ?_, ?_⟩
  · intro t ht
    rw [dataTransactions_eq] at ht
    obtain ⟨i, _, rfl⟩ := List.mem_map.mp ht
    rw [buildTransaction_note]
    rw [List.length_append, le32encode_length]
    have : (chunkData content i).length ≤ 1020 := by
      rw [chunkData, List.length_take]
      omega
    omega
  · rw [hlen, dataTransactions_eq, List.map_map]
    have : ∀ i ∈ List.range (numChunks content),
        ((fun t => le32decode (t.note.take 4)) ∘
          (fun i => buildTransaction params sender receiver
            (le32encode i ++ chunkData content i)
            (decide (i + 1 = numChunks content)))) i = i := by
      intro i hi
      have hilt : i < 4294967296 := lt_of_lt_of_le (List.mem_range.mp hi) hbound
      simp only [Function.comp_apply, buildTransaction_note]
      rw [take4_encode_append]
      have hnil : le32encode i = le32encode i ++ [] := (List.append_nil _).symm
      rw [hnil]
      exact le32decode_encode_append_of_lt i [] hilt
    rw [List.map_congr_left this]
    simp
  · rw [dataTransactions_eq, List.countP_map]
    rw [show List.range (numChunks content) = List.range m ++ [m] by
      rw [hm, List.range_succ]]
    rw [List.countP_append]
    have h0 : (List.range m).countP
        ((fun t => t.closeRemainderTo == some sender.addr) ∘
          (fun i => buildTransaction params sender receiver
            (le32encode i ++ chunkData content i)
            (decide (i + 1 = numChunks content)))) = 0 := by
      rw [List.countP_eq_zero]
      intro i hi
      have : decide (i + 1 = numChunks content) = false := by
        rw [decide_eq_false_iff_not]
        have := List.mem_range.mp hi
        omega
      simp only [Function.comp_apply, this, buildTransaction_noclose]
      simp
    rw [h0]
    have h1 : decide (m + 1 = numChunks content) = true := by
      rw [decide_eq_true_eq]
      omega
    simp [h1, buildTransaction_close]
  · refine ⟨buildTransaction params sender receiver
      (le32encode m ++ chunkData content m) (decide (m + 1 = numChunks content)),
      ?_, ?_, ?_⟩
    · rw [dataTransactions_eq, hm, List.range_succ, List.map_append, List.map_cons,
        List.map_nil, List.getLast?_concat]
    · have h1 : decide (m + 1 = numChunks content) = true := by
        rw [decide_eq_true_eq]
        omega
      rw [h1, buildTransaction_close]
    · rw [hlen, buildTransaction_note, take4_encode_append]
      have h3 := le32decode_encode_append_of_lt m [] (by omega)
      simpa [hm] using h3

/-- Witness for the chunking invariants at a concrete 3-byte content. -/
theorem blocknote_chunking_invariants_witness :
    ((dataTransactions 0 senderAccount receiverAccount [1, 2, 3]).length ≤ 4294967296)
    ∧ ((∀ t ∈ dataTransactions 0 senderAccount receiverAccount [1, 2, 3],
          t.note.length ≤ 1024)
      ∧ (dataTransactions 0 senderAccount receiverAccount [1, 2, 3]).map
          (fun t => le32decode (t.note.take 4))
          = List.range (dataTransactions 0 senderAccount receiverAccount [1, 2, 3]).length
      ∧ (dataTransactions 0 senderAccount receiverAccount [1, 2, 3]).countP
          (fun t => t.closeRemainderTo == some senderAccount.addr) = 1
      ∧ ∃ tlast,
          (dataTransactions 0 senderAccount receiverAccount [1, 2, 3]).getLast? = some tlast
          ∧ tlast.closeRemainderTo = some senderAccount.addr
          ∧ le32decode (tlast.note.take 4)
              = (dataTransactions 0 senderAccount receiverAccount [1, 2, 3]).length - 1) :=
  ⟨by decide, blocknote_chunking_invariants [1, 2, 3] 0 senderAccount receiverAccount
    (by decide)⟩

/-- C3: blocknote submission order.  On a non-simulated save the submission
sequence of `Blocknote.start` is the metadata transaction first, then every
data transaction except the popped last one — which is exactly the
largest-counter transaction, none of the earlier ones closing — and finally
the close (largest-counter) data transaction. -/
theorem blocknote_submission_order (content : Bytes) (params : Nat)
    (sender receiver : Account) (payload : Payload)
    (hbound : (dataTransactions params sender receiver content).length ≤ 4294967296) :
    ∃ closeTxn,
      (dataTransactions params sender receiver content).getLast? = some closeTxn
      ∧ startSubmissions false params sender receiver payload content
          = .meta (buildPayloadTransaction params sender receiver payload)
            :: ((dataTransactions params sender receiver content).dropLast.map .data
                ++ [.data closeTxn])
      ∧ closeTxn.closeRemainderTo = some sender.addr
      ∧ le32decode (closeTxn.note.take 4)
          = (dataTransactions params sender receiver content).length - 1
      ∧ ∀ t ∈ (dataTransactions params sender receiver content).dropLast,
          le32decode (t.note.take 4)
            < (dataTransactions params sender receiver content).length - 1
          ∧ t.closeRemainderTo = none := by
  have hlen := dataTransactions_length params sender receiver content
  rw [hlen] at hbound
  have hpos := numChunks_pos content
  obtain ⟨m, hm⟩ : ∃ m, numChunks content = m + 1 :=
    ⟨numChunks content - 1, by omega⟩
  have hgl : (dataTransactions params sender receiver content).getLast?
      = some (buildTransaction params sender receiver
          (le32encode m ++ chunkData content m)
          (decide (m + 1 = numChunks content))) := by
    rw [dataTransactions_eq, hm, List.range_succ, List.map_append, List.map_cons,
      List.map_nil, List.getLast?_concat]
  refine ⟨buildTransaction params sender receiver
      (le32encode m ++ chunkData content m) (decide (m + 1 = numChunks content)),
    hgl, ?_, ?_, ?_, ?_⟩
  · rw [startSubmissions]
    simp only [Bool.false_eq_true, if_false]
    rw [hgl]
  · have h1 : decide (m + 1 = numChunks content) = true := by
      rw [decide_eq_true_eq]
      omega
    rw [h1, buildTransaction_close]
  · rw [hlen, buildTransaction_note, take4_encode_append]
    have h3 := le32decode_encode_append_of_lt m [] (by omega)
    simpa [hm] using h3
  · intro t ht
    rw [dataTransactions_eq, hm, List.range_succ, List.map_append, List.map_cons,
      List.map_nil, List.dropLast_concat] at ht
    obtain ⟨i, hi, rfl⟩ := List.mem_map.mp ht
    have hiltm : i < m := List.mem_range.mp hi
    have hfalse : decide (i + 1 = m + 1) = false := by
      rw [decide_eq_false_iff_not]
      omega
    constructor
    · rw [hlen, buildTransaction_note, take4_encode_append]
      have hnil : le32encode i = le32encode i ++ [] := (List.append_nil _).symm
      rw [hnil, le32decode_encode_append_of_lt i [] (by omega)]
      omega
    · rw [hfalse, buildTransaction_noclose]

/-- Witness for the submission order at a concrete 2-byte content. -/
theorem blocknote_submission_order_witness :
    ((dataTransactions 1 senderAccount receiverAccount [4, 5]).length ≤ 4294967296)
    ∧ ∃ closeTxn,
      (dataTransactions 1 senderAccount receiverAccount [4, 5]).getLast? = some closeTxn
      ∧ startSubmissions false 1 senderAccount receiverAccount twoChunkPayload [4, 5]
          = .meta (buildPayloadTransaction 1 senderAccount receiverAccount twoChunkPayload)
            :: ((dataTransactions 1 senderAccount receiverAccount [4, 5]).dropLast.map .data
                ++ [.data closeTxn])
      ∧ closeTxn.closeRemainderTo = some senderAccount.addr
      ∧ le32decode (closeTxn.note.take 4)
          = (dataTransactions 1 senderAccount receiverAccount [4, 5]).length - 1
      ∧ ∀ t ∈ (dataTransactions 1 senderAccount receiverAccount [4, 5]).dropLast,
          le32decode (t.note.take 4)
            < (dataTransactions 1 senderAccount receiverAccount [4, 5]).length - 1
          ∧ t.closeRemainderTo = none :=
  ⟨by decide, blocknote_submission_order [4, 5] 1 senderAccount receiverAccount
    twoChunkPayload (by decide)⟩

/-- C4: the `none` codec is claimed to be an identity conversion to bytes,
passing every byte buffer through unchanged.  The code only passes an
`ArrayBuffer` instance through (and does encode strings as UTF-8, with
`uncompress` the identity); but a `Uint8Array` — not `instanceof
ArrayBuffer` — falls into the `toString()` branch and comes out as the UTF-8
encoding of its comma-joined decimals: `[0, 1]` becomes `[48, 44, 49]`
(the text form of the string built from `0`, a comma and `1`), not `[0, 1]`. -/
theorem none_codec_identity_fails :
    (∀ bytes, noneCompress (.arrayBuffer bytes) = bytes)
    ∧ (∀ s, noneCompress (.str s) = utf8Bytes s)
    ∧ (∀ bytes, noneUncompress bytes = bytes)
    ∧ noneCompress (.uint8 [0, 1]) = [48, 44, 49]
    ∧ [48, 44, 49] ≠ ([0, 1] : Bytes) :=
  ⟨fun _ => rfl, fun _ => rfl, fun _ => rfl, by decide, by decide⟩

/-- C1: the write/read round-trip is claimed for every payload (string or
byte buffer), every registered codec and every encryption mode.  Evaluating
the embedded pipeline at the byte-buffer payload `[104, 105]` with the
registered `none` codec and no encryption: the save mangles the buffer
through the `toString()` branch of the `none` codec, and the read returns
the UTF-8 bytes of the text built from `104`, a comma and `105` — not the
original payload — while the mime is preserved. -/
theorem blocknote_roundtrip_fails_for_uint8_none :
    blocknoteRead trivialCrypto noneOnlyRegistry roundtripSample.payload
        roundtripSample.dataTxns plainReadOpts
      = .ok (roundtripSample.payload, [49, 48, 52, 44, 49, 48, 53])
    ∧ roundtripSample.payload.mime = textPlain
    ∧ rawBytes (.uint8 [104, 105]) = [104, 105]
    ∧ ([49, 48, 52, 44, 49, 48, 53] : Bytes) ≠ [104, 105] := by
  refine ⟨?_, rfl, rfl, by decide⟩
  rfl

theorem getChunks_error_of_undefined (ts : List (Option PayTxn)) (h : none ∈ ts) :
    getChunksOrderedByCounter ts = .error (.typeError undefinedNoteMsg) := by
  rw [getChunksOrderedByCounter]
  generalize SparseArr.empty = arr
  induction ts generalizing arr with
  | nil => simp at h
  | cons t rest ih =>
      cases t with
      | none => rfl
      | some txn =>
          have hr : none ∈ rest := by
            rcases List.mem_cons.mp h with h1 | h2
            · exact absurd h1 (by simp)
            · exact h2
          exact ih hr _

theorem consolidate_error_of_undefined (ts : List (Option PayTxn))
    (h : none ∈ ts) :
    consolidate ts = .error (.typeError undefinedNoteMsg) := by
  rw [consolidate, getChunks_error_of_undefined ts h]
  rfl

/-- C10: implicit precondition of the blocknote reader.  When the search
yields fewer matching data transactions than `payload.txns`, the reader
copies `undefined` entries into its transaction list and the
counter-ordering step dereferences `.note` of `undefined`: the read fails
with an untyped runtime `TypeError` (not one of the reader's own thrown
errors, and no partial result). -/
theorem reader_requires_full_chunk_set (crypto : CryptoModel)
    (reg : String → Bytes → Bytes) (payload : Payload)
    (all_transactions : List PayTxn) (opts : ReadOpts)
    (hshort : all_transactions.length < payload.txns) :
    blocknoteRead crypto reg payload all_transactions opts
      = .error (.typeError undefinedNoteMsg) := by
  have hmem : none ∈ (List.range payload.txns).map
      (fun x => all_transactions.get? x) :=
    List.mem_map.mpr ⟨all_transactions.length, List.mem_range.mpr hshort,
      List.get?_eq_none.mpr (Nat.le_refl _)⟩
  rw [blocknoteRead]
  rw [consolidate_error_of_undefined _ hmem]
  rfl

/-- Witness for the reader precondition: a metadata record announcing two
data transactions read against a single search result. -/
theorem reader_requires_full_chunk_set_witness :
    ((dataTransactions 0 senderAccount receiverAccount [9]).length
        < twoChunkPayload.txns)
    ∧ blocknoteRead trivialCrypto noneOnlyRegistry twoChunkPayload
        (dataTransactions 0 senderAccount receiverAccount [9]) plainReadOpts
      = .error (.typeError undefinedNoteMsg) :=
  ⟨by decide, reader_requires_full_chunk_set trivialCrypto noneOnlyRegistry
    twoChunkPayload (dataTransactions 0 senderAccount receiverAccount [9])
    plainReadOpts (by decide)⟩

theorem jsTruthy_of_jsLengthEq52 (v : Json) (h : jsLengthEq52 v = true) :
    jsTruthy v = true := by
  cases v with
  | str s =>
      simp only [jsLengthEq52, beq_iff_eq] at h
      simp only [jsTruthy, bne_iff_ne]
      omega
  | arr l => rfl
  | obj fields => rfl
  | null => simp [jsLengthEq52] at h
  | bool b => simp [jsLengthEq52] at h
  | num n => simp [jsLengthEq52] at h

/-- C5: revision-tag validity.  A transaction note is counted as a revision
tag exactly when it parses as a JSON object with exactly one key, that key
is "revision", and its value has length 52.  In particular a note of shape
`{something: true, revision: "…"}` is not counted (two keys), and a
missing or non-JSON-parseable note (`none`) yields no revision. -/
theorem revision_tag_validity (parsed_note : Option Json) :
    ((getRevisionPayloadTransactionId parsed_note).isSome
      = specRevisionValid parsed_note)
    ∧ (∀ (v52 : Json),
        getRevisionPayloadTransactionId
          (some (.obj [(untitled, .bool true), (revisionKey, v52)])) = none)
    ∧ getRevisionPayloadTransactionId none = none := by
  refine ⟨?_, ?_, rfl⟩
  · cases parsed_note with
    | none => rfl
    | some note =>
        cases note with
        | null => rfl
        | bool b => rfl
        | num n => rfl
        | str s => rfl
        | arr l => rfl
        | obj fields =>
            cases fields with
            | nil => rfl
            | cons kv rest =>
                obtain ⟨k, v⟩ := kv
                cases rest with
                | cons kv2 rest2 =>
                    simp only [getRevisionPayloadTransactionId, jsEntriesLength,
                      specRevisionValid, List.length_cons]
                    rw [if_neg]
                    · rfl
                    · simp
                | nil =>
                    by_cases hk : (revisionKey == k) = true
                    · have hkk : k = revisionKey := (beq_iff_eq.mp hk).symm
                      subst hkk
                      simp only [getRevisionPayloadTransactionId, jsGetRevision,
                        specRevisionValid, List.lookup, beq_self_eq_true,
                        jsEntriesLength, List.length_cons, List.length_nil]
                      by_cases hv : jsLengthEq52 v = true
                      · rw [jsTruthy_of_jsLengthEq52 v hv, hv]
                        simp
                      · simp only [Bool.not_eq_true] at hv
                        rw [hv]
                        simp
                    · simp only [Bool.not_eq_true] at hk
                      simp only [getRevisionPayloadTransactionId, jsGetRevision,
                        specRevisionValid, List.lookup, hk, beq_iff_eq]
                      have hne : ¬(k = revisionKey) := by
                        intro he
                        rw [he] at hk
                        simp at hk
                      simp [hne]
  · intro v52
    simp only [getRevisionPayloadTransactionId, jsGetRevision, jsEntriesLength,
      List.length_cons, List.length_nil]
    rw [if_neg]
    simp

/-- C6: streamnote stop detection.  `isStreamOver` is claimed to return true
exactly when the receiver received a self-sent transaction whose note
decodes to the literal "stop".  But the source compares the decoded note
`Buffer` against the string "stop" with `===`, which never equates an object
with a string: on a transaction of exactly the claimed shape (self-sent,
note bytes spelling stop) the function still returns false — it can never
return true, contradicting its own documentation. -/
theorem stream_stop_detection_never_fires :
    stopNoteTxn.sender = receiverAccount.addr
    ∧ stopNoteTxn.note = utf8Bytes stopMarker
    ∧ isStreamOver receiverAccount.addr [stopNoteTxn] = false
    ∧ (∀ (receiver : String) (received : List SearchTxn),
        isStreamOver receiver received = false) := by
  refine ⟨rfl, rfl, rfl, ?_⟩
  intro receiver received
  rw [isStreamOver]
  have hnil : received.filter
      (fun t => t.sender == receiver && bufferStrictEqString t.note stopMarker)
      = [] := by
    rw [List.filter_eq_nil_iff]
    intro t _
    simp [bufferStrictEqString]
  rw [hnil]
  rfl

theorem retryTrace_all_retries (msg : String)
    (hmsg : mentionsAlreadyInLedger msg = false) :
    ∀ (k c : Nat), c + k ≤ 26 →
      retryTrace 25 c (List.replicate k (.failed msg)) = List.replicate k .retry := by
  intro k
  induction k with
  | zero => intro c _; rfl
  | succ n ih =>
      intro c hc
      rw [List.replicate_succ, List.replicate_succ]
      rw [retryTrace]
      have hd : retryDecision 25 c (.failed msg) = .retry := by
        rw [retryDecision, hmsg]
        simp only [Bool.false_eq_true, if_false]
        rw [if_neg (by omega)]
      rw [hd]
      simp only []
      rw [ih (c + 1) (by omega)]

theorem retryTrace_rebuild_at_27 (msg : String)
    (hmsg : mentionsAlreadyInLedger msg = false) :
    ∀ (k c : Nat), c + k = 26 →
      retryTrace 25 c (List.replicate (k + 1) (.failed msg))
        = List.replicate k .retry ++ [.rebuild] := by
  intro k
  induction k with
  | zero =>
      intro c hc
      rw [List.replicate_succ, retryTrace]
      have hd : retryDecision 25 c (.failed msg) = .rebuild := by
        rw [retryDecision, hmsg]
        simp only [Bool.false_eq_true, if_false]
        rw [if_pos (by omega)]
      rw [hd]
      rfl
  | succ n ih =>
      intro c hc
      rw [List.replicate_succ, retryTrace]
      have hd : retryDecision 25 c (.failed msg) = .retry := by
        rw [retryDecision, hmsg]
        simp only [Bool.false_eq_true, if_false]
        rw [if_neg (by omega)]
      rw [hd]
      simp only []
      rw [ih (c + 1) (by omega)]
      rw [List.replicate_succ]
      rfl

/-- Counterexample to C7 as stated: on a transaction that keeps failing with
an error not containing "transaction already in ledger", the 26 first
failures all produce retries — in particular the failure following the 25th
retry is still answered with a retry of the same signed transaction, not
with the rebuild the claim mandates after 25 consecutive retries. -/
theorem retry_policy_26_retries_before_rebuild :
    retryTrace 25 0 (List.replicate 26 (.failed genericNetworkError)) =
      List.replicate 26 .retry
    ∧ mentionsAlreadyInLedger genericNetworkError = false := by
  constructor
  · decide
  · decide

/-- C7 as amended: the retry policy of the blocknote sender.  An outcome
whose error contains "transaction already in ledger" is treated as success
(its fee is recorded, it is neither retried nor rebuilt), as is a confirmed
submit; any other error is retried while the per-id counter is at most the
threshold 25; once the counter exceeds 25 the transaction is rebuilt — so on
consecutive failures the rebuild happens at the 27th failure, after 26
retries — with the rebuilt transaction keeping the same note and close flag
under fresh suggested params, and the retry counter reset (the trace after a
rebuild restarts from counter 0). -/
theorem retry_policy_amended (msg : String)
    (hmsg : mentionsAlreadyInLedger msg = false) :
    (∀ (c : Nat) (dup : String), mentionsAlreadyInLedger dup = true →
        retryDecision 25 c (.failed dup) = .recordFee)
    ∧ (∀ (c : Nat), retryDecision 25 c .executed = .recordFee)
    ∧ (∀ (c : Nat), c ≤ 25 → retryDecision 25 c (.failed msg) = .retry)
    ∧ (∀ (c : Nat), 25 < c → retryDecision 25 c (.failed msg) = .rebuild)
    ∧ retryTrace 25 0 (List.replicate 27 (.failed msg))
        = List.replicate 26 .retry ++ [.rebuild]
    ∧ (∀ (params : Nat) (sender receiver : Account) (t : PayTxn),
        (rebuildTransaction params sender receiver t).note = t.note
        ∧ ((rebuildTransaction params sender receiver t).closeRemainderTo.isSome
            = t.closeRemainderTo.isSome)
        ∧ (rebuildTransaction params sender receiver t).params = params) := by
  refine ⟨?_, fun c => rfl, ?_, ?_, ?_, ?_⟩
  · intro c dup hdup
    rw [retryDecision, hdup]
    rfl
  · intro c hc
    rw [retryDecision, hmsg]
    simp only [Bool.false_eq_true, if_false]
    rw [if_neg (by omega)]
  · intro c hc
    rw [retryDecision, hmsg]
    simp only [Bool.false_eq_true, if_false]
    rw [if_pos (by omega)]
  · exact retryTrace_rebuild_at_27 msg hmsg 26 0 (by omega)
  · intro params sender receiver t
    refine ⟨buildTransaction_note .., ?_, ?_⟩
    · rw [rebuildTransaction]
      cases h : t.closeRemainderTo.isSome
      · rw [buildTransaction_noclose]
        rfl
      · rw [buildTransaction_close]
        rfl
    · rw [rebuildTransaction]
      cases t.closeRemainderTo.isSome <;> rfl

/-- Witness for the amended retry policy at a concrete failure message. -/
theorem retry_policy_amended_witness :
    (mentionsAlreadyInLedger genericNetworkError = false)
    ∧ ((∀ (c : Nat) (dup : String), mentionsAlreadyInLedger dup = true →
          retryDecision 25 c (.failed dup) = .recordFee)
      ∧ (∀ (c : Nat), retryDecision 25 c .executed = .recordFee)
      ∧ (∀ (c : Nat), c ≤ 25 →
          retryDecision 25 c (.failed genericNetworkError) = .retry)
      ∧ (∀ (c : Nat), 25 < c →
          retryDecision 25 c (.failed genericNetworkError) = .rebuild)
      ∧ retryTrace 25 0 (List.replicate 27 (.failed genericNetworkError))
          = List.replicate 26 .retry ++ [.rebuild]
      ∧ (∀ (params : Nat) (sender receiver : Account) (t : PayTxn),
          (rebuildTransaction params sender receiver t).note = t.note
          ∧ ((rebuildTransaction params sender receiver t).closeRemainderTo.isSome
              = t.closeRemainderTo.isSome)
          ∧ (rebuildTransaction params sender receiver t).params = params)) :=
  ⟨by decide, retry_policy_amended genericNetworkError (by decide)⟩

theorem eraseKey_length (m : List (Nat × Bytes)) (s : Nat) (v : Bytes)
    (h : m.lookup s = some v) : (eraseKey m s).length + 1 = m.length := by
  induction m with
  | nil => simp [List.lookup] at h
  | cons kv rest ih =>
      obtain ⟨k, b⟩ := kv
      by_cases hk : k = s
      · subst hk
        simp [eraseKey]
      · have hbeq : (s == k) = false := beq_eq_false_iff_ne.mpr (fun hs => hk hs.symm)
        simp only [List.lookup, hbeq] at h
        simp only [eraseKey]
        rw [if_neg hk]
        simp only [List.length_cons]
        rw [ih h]

theorem emitRunFuel_congr (fuel₁ : Nat) :
    ∀ (fuel₂ : Nat) (m : List (Nat × Bytes)) (s : Nat),
      m.length < fuel₁ → m.length < fuel₂ →
      emitRunFuel fuel₁ m s = emitRunFuel fuel₂ m s := by
  induction fuel₁ with
  | zero => intro fuel₂ m s h1 _; omega
  | succ f ih =>
      intro fuel₂ m s h1 h2
      match fuel₂, h2 with
      | g + 1, h2 =>
        simp only [emitRunFuel]
        cases hl : m.lookup s with
        | none => rfl
        | some v =>
            have hlen := eraseKey_length m s v hl
            rw [ih g (eraseKey m s) (s + 1) (by omega) (by omega)]

theorem emitRun_unfold (m : List (Nat × Bytes)) (s : Nat) :
    emitRun m s =
      match m.lookup s with
      | none => ([], m)
      | some v =>
          ((s, v) :: (emitRun (eraseKey m s) (s + 1)).1,
            (emitRun (eraseKey m s) (s + 1)).2) := by
  show emitRunFuel (m.length + 1) m s = _
  simp only [emitRunFuel]
  cases hl : m.lookup s with
  | none => rfl
  | some v =>
      have hlen := eraseKey_length m s v hl
      rw [emitRunFuel_congr m.length ((eraseKey m s).length + 1) (eraseKey m s)
        (s + 1) (by omega) (by omega)]
      rfl

theorem emitRun_counters (m : List (Nat × Bytes)) (s : Nat) :
    (emitRun m s).1.map Prod.fst = List.range' s (emitRun m s).1.length := by
  rw [emitRun_unfold]
  cases hl : m.lookup s with
  | none => rfl
  | some v =>
      simp only [List.map_cons, List.length_cons]
      rw [emitRun_counters (eraseKey m s) (s + 1)]
      rw [List.range'_succ]
termination_by m.length
decreasing_by
  have hlen := eraseKey_length m s v hl
  omega

theorem emitRun_found_cons (m : List (Nat × Bytes)) (s : Nat) (v : Bytes)
    (h : m.lookup s = some v) :
    (emitRun m s).1 = (s, v) :: (emitRun (eraseKey m s) (s + 1)).1 := by
  rw [emitRun_unfold, h]

theorem head_lookup (kv : Nat × Bytes) (rest : List (Nat × Bytes)) :
    (kv :: rest).lookup kv.1 = some kv.2 := by
  obtain ⟨k, b⟩ := kv
  simp [List.lookup]

theorem range'_glue (s a b : Nat) :
    List.range' s a ++ List.range' (s + a) b = List.range' s (a + b) := by
  have h := List.range'_append s a b 1
  simp only [Nat.one_mul] at h
  rw [h, Nat.add_comm b a]

theorem updateContentChunks_seek (st : SnrState) (batch : List (Nat × Bytes)) :
    (updateContentChunks st batch).consolidate_seek = st.consolidate_seek := by
  rw [updateContentChunks]
  split
  · rfl
  · rfl

/-- One consolidation pass preserves the contiguity invariant: either
nothing has ever been emitted and the seek is still unset, or the emitted
counters so far are exactly `s0, s0+1, …` and the seek sits one past them. -/
theorem consolidateContent_inv (st : SnrState) (trace : List (Nat × Bytes))
    (hinv : (trace = [] ∧ st.consolidate_seek = 0)
      ∨ ∃ s0 n, trace.map Prod.fst = List.range' s0 (n + 1)
          ∧ st.consolidate_seek = s0 + (n + 1)) :
    ((trace ++ (consolidateContent st).2 = []
        ∧ (consolidateContent st).1.consolidate_seek = 0)
      ∨ ∃ s0 n, (trace ++ (consolidateContent st).2).map Prod.fst
            = List.range' s0 (n + 1)
          ∧ (consolidateContent st).1.consolidate_seek = s0 + (n + 1)) := by
  rw [consolidateContent]
  by_cases he : st.content_chunks.isEmpty
  · rw [if_pos he]
    simp
    exact hinv
  · rw [if_neg he]
    simp only []
    rcases hinv with ⟨h1, h2⟩ | ⟨s0, n, h1, h2⟩
    · subst h1
      obtain ⟨kv, rest, hm⟩ : ∃ kv rest, st.content_chunks = kv :: rest := by
        cases hchunks : st.content_chunks with
        | nil => rw [hchunks] at he; simp at he
        | cons kv rest => exact ⟨kv, rest, rfl⟩
      have hseek0 : (if st.consolidate_seek = 0
          then ((st.content_chunks.head?.map Prod.fst).getD 0)
          else st.consolidate_seek) = kv.1 := by
        rw [if_pos h2, hm]
        rfl
      rw [hseek0, hm]
      have hfound := emitRun_found_cons (kv :: rest) kv.1 kv.2 (head_lookup kv rest)
      have hc := emitRun_counters (kv :: rest) kv.1
      refine Or.inr ⟨kv.1, (emitRun (eraseKey (kv :: rest) kv.1) (kv.1 + 1)).1.length,
        ?_, ?_⟩
      · simp only [List.nil_append]
        rw [hc, hfound]
        simp
      · rw [hfound]
        simp
    · have hs : ¬(st.consolidate_seek = 0) := by omega
      rw [if_neg hs]
      have hc := emitRun_counters st.content_chunks st.consolidate_seek
      refine Or.inr ⟨s0,
        n + (emitRun st.content_chunks st.consolidate_seek).1.length, ?_, ?_⟩
      · rw [List.map_append, h1, hc, h2]
        rw [range'_glue s0 (n + 1) _]
        congr 1
        omega
      · rw [h2]
        omega

/-- Running the reader preserves the contiguity invariant. -/
theorem runReader_inv (ops : List ReaderOp) :
    ∀ (st : SnrState) (trace : List (Nat × Bytes)),
      ((trace = [] ∧ st.consolidate_seek = 0)
        ∨ ∃ s0 n, trace.map Prod.fst = List.range' s0 (n + 1)
            ∧ st.consolidate_seek = s0 + (n + 1)) →
      ((trace ++ (runReader st ops).2 = []
          ∧ (runReader st ops).1.consolidate_seek = 0)
        ∨ ∃ s0 n, (trace ++ (runReader st ops).2).map Prod.fst
              = List.range' s0 (n + 1)
            ∧ (runReader st ops).1.consolidate_seek = s0 + (n + 1)) := by
  induction ops with
  | nil =>
      intro st trace h
      simp only [runReader]
      simpa using h
  | cons op rest ih =>
      intro st trace h
      cases op with
      | deliver batch =>
          simp only [runReader]
          apply ih
          have hseek := updateContentChunks_seek st batch
          rcases h with ⟨h1, h2⟩ | ⟨s0, n, h1, h2⟩
          · exact Or.inl ⟨h1, by rw [hseek]; exact h2⟩
          · exact Or.inr ⟨s0, n, h1, by rw [hseek]; exact h2⟩
      | consolidate =>
          simp only [runReader]
          have hstep := consolidateContent_inv st trace h
          have hrec := ih (consolidateContent st).1
            (trace ++ (consolidateContent st).2) hstep
          simpa [List.append_assoc] using hrec

/-- C8 as amended: in-order, contiguous delivery from the join point.  Over
any interleaving of indexer deliveries and consolidation passes, the
counters emitted through `on_data` form one contiguous strictly increasing
run `s0, s0+1, s0+2, …`: every counter between the first emitted one and an
emitted counter `k` is emitted before `k`, and a gap at the seek halts
emission until the missing counter arrives.  (Counters below the initial
seek — a reader joining mid-stream — are simply never emitted, which is
what the unamended claim missed.) -/
theorem streamnote_reader_contiguous_emission (ops : List ReaderOp) :
    ∃ s0, (runReader initialReader ops).2.map Prod.fst
      = List.range' s0 (runReader initialReader ops).2.length := by
  have h := runReader_inv ops initialReader [] (Or.inl ⟨rfl, rfl⟩)
  rcases h with ⟨h1, _⟩ | ⟨s0, n, h1, _⟩
  · refine ⟨0, ?_⟩
    rw [List.nil_append] at h1
    rw [h1]
    rfl
  · refine ⟨s0, ?_⟩
    rw [List.nil_append] at h1
    have hlen := congrArg List.length h1
    simp only [List.length_map, List.length_range'] at hlen
    rw [h1, hlen]

/-- Counterexample to C8 as stated: a reader that first learns of the chunk
with counter 5 (the `start` path seeds the buffer with just the last
transaction seen) emits counter 5 as its very first emission — no counter
below 5 was ever emitted before it. -/
theorem streamnote_reader_join_gap :
    (runReader initialReader [.deliver [(5, [1])], .consolidate]).2.map Prod.fst
      = [5] := by
  decide

/-- C9 as amended: the stall-timeout flush of the streamnote processor.  In
a step where no stop was requested and the compressed candidate is under
1024 bytes, if the candidate hash matches the tracked one and the tracked
stall timestamp is strictly older than `note_max_size_not_reached_timeout`
(15000 ms) — strictly, not "at least": at exactly 15000 ms the source's
`>` comparison does not fire — the candidate is enqueued anyway, the
content buffer is cleared, the padding and the stall tracker are reset and
the counter advances by one. -/
theorem streamnote_stall_flush (compressFn : List Char → Nat → Bytes)
    (hashFn : Bytes → String) (now t : Nat) (s : SnState)
    (hcontent : s.content ≠ [])
    (hstop : s.stop_requested = false)
    (hsize : (snCandidate compressFn s).length < note_max_size)
    (hhash : s.last_hash_compressed_chunk = some (hashFn (snCandidate compressFn s)))
    (hts : s.ts_same_hash = some t)
    (ht0 : t ≠ 0)
    (helapsed : note_max_size_not_reached_timeout < now - t) :
    snProcess compressFn hashFn now s
      = some { s with
               content := [],
               extra_padding := 0,
               ts_same_hash := none,
               last_hash_compressed_chunk := none,
               transactions_queue := s.transactions_queue ++ [snCandidate compressFn s],
               counter := s.counter + 1 } := by
  obtain ⟨content, pad, counter, lasth, tsh, stopr, queue⟩ := s
  simp only [snCandidate] at hsize hhash ⊢
  dsimp only at hcontent hstop hsize hhash hts ⊢
  subst hstop
  subst hts
  subst hhash
  have hlen0 : ¬(content.length = 0) := by
    simp only [List.length_eq_zero]
    exact hcontent
  simp only [snProcess, snCandidate]
  rw [if_neg hlen0]
  simp only [eq_self_iff_true, not_true_eq_false, Bool.false_eq_true, if_false,
    reduceCtorEq]
  rw [if_pos hsize]
  rw [if_pos ⟨ht0, helapsed⟩]

/-- Counterexample to C9 as stated: at a stall of exactly
`note_max_size_not_reached_timeout` (15000 ms, "at least" the timeout), the
processor does not flush — the step leaves the content buffer and the
counter untouched, enqueues nothing, and only grows the padding by 50. -/
theorem streamnote_stall_boundary_no_flush :
    snProcess charCodesCompress lengthHash 15001 stallState
      = some { stallState with extra_padding := 50 }
    ∧ stallState.ts_same_hash = some 1
    ∧ 15001 - 1 = note_max_size_not_reached_timeout
    ∧ ({ stallState with extra_padding := 50 } : SnState).transactions_queue = []
    ∧ ({ stallState with extra_padding := 50 } : SnState).content = stallState.content
    ∧ ({ stallState with extra_padding := 50 } : SnState).counter = stallState.counter := by
  refine ⟨by decide, rfl, rfl, rfl, rfl, rfl⟩

/-- Witness for the amended stall flush one millisecond past the timeout. -/
theorem streamnote_stall_flush_witness :
    (stallState.content ≠ []
      ∧ stallState.stop_requested = false
      ∧ (snCandidate charCodesCompress stallState).length < note_max_size
      ∧ stallState.last_hash_compressed_chunk
          = some (lengthHash (snCandidate charCodesCompress stallState))
      ∧ stallState.ts_same_hash = some 1
      ∧ (1 : Nat) ≠ 0
      ∧ note_max_size_not_reached_timeout < 15002 - 1)
    ∧ snProcess charCodesCompress lengthHash 15002 stallState
      = some { stallState with
               content := [],
               extra_padding := 0,
               ts_same_hash := none,
               last_hash_compressed_chunk := none,
               transactions_queue := stallState.transactions_queue
                 ++ [snCandidate charCodesCompress stallState],
               counter := stallState.counter + 1 } :=
  ⟨⟨by decide, rfl, by decide, by decide, rfl, by decide, by decide⟩,
    streamnote_stall_flush charCodesCompress lengthHash 15002 1 stallState
      (by decide) rfl (by decide) (by decide) rfl (by decide) (by decide)⟩

/-! ## The positive side of the round-trip: reading back a save whose codec
and cipher actually invert returns the original payload. -/

theorem range_map_get (l : List PayTxn) :
    (List.range l.length).map (fun x => l.get? x) = l.map some := by
  induction l with
  | nil => rfl
  | cons a tail ih =>
      rw [List.length_cons, List.range_succ_eq_map, List.map_cons, List.map_map,
        List.map_cons]
      congr 1

theorem getChunks_all_some (ts : List PayTxn) :
    getChunksOrderedByCounter (ts.map some)
      = .ok (ts.foldl
          (fun arr txn =>
            arr.setAt (le32decode (txn.note.take 4)) (txn.note.drop 4))
          SparseArr.empty) := by
  rw [getChunksOrderedByCounter]
  generalize SparseArr.empty = arr
  induction ts generalizing arr with
  | nil => rfl
  | cons txn rest ih =>
      rw [List.map_cons, List.foldl_cons]
      exact ih _

theorem flatten_chunkData (content : Bytes) :
    ((List.range (numChunks content)).map (chunkData content)).flatten
      = content := by
  by_cases h : content.length ≤ 1020
  · rw [numChunks_of_le content h]
    have hr : List.range 1 = [0] := rfl
    rw [hr, List.map_cons, List.map_nil, List.flatten_cons, List.flatten_nil]
    simp [chunkData, List.take_of_length_le h]
  · rw [numChunks_of_gt content (by omega), List.range_succ_eq_map, List.map_cons,
      List.map_map, List.flatten_cons]
    have hx : ∀ i ∈ List.range (numChunks (content.drop 1020)),
        (chunkData content ∘ Nat.succ) i = chunkData (content.drop 1020) i := by
      intro i _
      simp only [Function.comp_apply, chunkData, List.drop_drop]
      have harith : 1020 + 1020 * i = 1020 * (i + 1) := by ring
      rw [harith]
    rw [List.map_congr_left hx, flatten_chunkData (content.drop 1020)]
    simp [chunkData, List.take_append_drop]
termination_by content.length
decreasing_by
  simp only [List.length_drop]
  omega

/-- Folding the counter-ordered writes of the reader over the in-order data
transactions fills the sparse array exactly with the content slices. -/
theorem fold_setAt_spec (content : Bytes) (params : Nat)
    (sender receiver : Account) (hb : numChunks content ≤ 4294967296) :
    ∀ (j k : Nat) (arr : SparseArr), k + j = numChunks content →
      arr.len = k →
      (∀ i, arr.get i = if i < k then some (chunkData content i) else none) →
      (((List.range' k j).map
          (fun i => buildTransaction params sender receiver
            (le32encode i ++ chunkData content i)
            (decide (i + 1 = numChunks content)))).foldl
          (fun a txn => a.setAt (le32decode (txn.note.take 4)) (txn.note.drop 4))
          arr).len = numChunks content
      ∧ ∀ i, (((List.range' k j).map
          (fun i => buildTransaction params sender receiver
            (le32encode i ++ chunkData content i)
            (decide (i + 1 = numChunks content)))).foldl
          (fun a txn => a.setAt (le32decode (txn.note.take 4)) (txn.note.drop 4))
          arr).get i
        = if i < numChunks content then some (chunkData content i) else none := by
  intro j
  induction j with
  | zero =>
      intro k arr hk hlen hget
      simp only [List.range'_zero, List.map_nil, List.foldl_nil]
      constructor
      · omega
      · intro i
        rw [hget i]
        have hkm : k = numChunks content := by omega
        rw [hkm]
  | succ j ih =>
      intro k arr hk hlen hget
      rw [List.range'_succ, List.map_cons, List.foldl_cons]
      have hnote : (buildTransaction params sender receiver
          (le32encode k ++ chunkData content k)
          (decide (k + 1 = numChunks content))).note
          = le32encode k ++ chunkData content k := buildTransaction_note ..
      have hstep : arr.setAt
          (le32decode ((buildTransaction params sender receiver
            (le32encode k ++ chunkData content k)
            (decide (k + 1 = numChunks content))).note.take 4))
          ((buildTransaction params sender receiver
            (le32encode k ++ chunkData content k)
            (decide (k + 1 = numChunks content))).note.drop 4)
          = arr.setAt k (chunkData content k) := by
        rw [hnote, take4_encode_append, drop4_encode_append]
        have hk32 : le32decode (le32encode k) = k := by
          have hdec := le32decode_encode_append_of_lt k [] (by omega)
          rw [List.append_nil] at hdec
          exact hdec
        rw [hk32]
      rw [hstep]
      apply ih (k + 1)
      · omega
      · show max arr.len (k + 1) = k + 1
        omega
      · intro i
        show (if i = k then some (chunkData content k) else arr.get i)
          = if i < k + 1 then some (chunkData content i) else none
        by_cases hik : i = k
        · rw [if_pos hik, if_pos (by omega), hik]
        · rw [if_neg hik, hget i]
          by_cases hlt : i < k
          · rw [if_pos hlt, if_pos (by omega)]
          · rw [if_neg hlt, if_neg (by omega)]

/-- The counter-ordering pass over a complete in-order set of data
transactions yields the array of content slices. -/
theorem getChunks_dataTransactions (content : Bytes) (params : Nat)
    (sender receiver : Account) (hb : numChunks content ≤ 4294967296) :
    ∃ arr, getChunksOrderedByCounter
        ((dataTransactions params sender receiver content).map some) = .ok arr
      ∧ arr.len = numChunks content
      ∧ ∀ i, arr.get i
          = if i < numChunks content then some (chunkData content i) else none := by
  rw [dataTransactions_eq, getChunks_all_some]
  refine ⟨_, rfl, ?_⟩
  rw [List.range_eq_range']
  have h := fold_setAt_spec content params sender receiver hb (numChunks content)
    0 SparseArr.empty (by omega) rfl (fun i => by
      show none = if i < 0 then some (chunkData content i) else none
      rw [if_neg (by omega)])
  exact h

theorem mapM_ok_of_get (arr : SparseArr) (g : Nat → Bytes) :
    ∀ (l : List Nat), (∀ i ∈ l, arr.get i = some (g i)) →
      (l.mapM (fun i =>
        match arr.get i with
        | none => Except.error (JsError.typeError arrayHoleMsg)
        | some chunk => Except.ok chunk) : Except JsError (List Bytes))
      = .ok (l.map g) := by
  intro l
  induction l with
  | nil => intro _; rfl
  | cons x rest ih =>
      intro hall
      rw [List.mapM_cons]
      rw [hall x (List.mem_cons_self ..)]
      rw [ih (fun i hi => hall i (List.mem_cons_of_mem x hi))]
      rfl

/-- Consolidating the complete in-order set of data transactions built from
a content buffer reconstructs that buffer. -/
theorem consolidate_dataTransactions (content : Bytes) (params : Nat)
    (sender receiver : Account) (hb : numChunks content ≤ 4294967296) :
    consolidate ((dataTransactions params sender receiver content).map some)
      = .ok content := by
  obtain ⟨arr, harr, hlen, hget⟩ :=
    getChunks_dataTransactions content params sender receiver hb
  rw [consolidate, harr]
  have hmap := mapM_ok_of_get arr (chunkData content) (List.range arr.len)
    (fun i hi => by
      rw [hget i, if_pos (by
        have := List.mem_range.mp hi
        omega)])
  show ((List.range arr.len).mapM (fun i =>
      match arr.get i with
      | none => Except.error (JsError.typeError arrayHoleMsg)
      | some chunk => Except.ok chunk) >>= fun chunks => pure chunks.flatten)
      = Except.ok content
  rw [hmap]
  show Except.ok ((List.range arr.len).map (chunkData content)).flatten
      = Except.ok content
  rw [hlen, flatten_chunkData]

/-- Reading a complete in-order set of data transactions: the reassembled
content goes through the optional decryption (summarized by `hdec`) and the
registry's uncompress. -/
theorem blocknoteRead_complete (crypto : CryptoModel)
    (reg : String → Bytes → Bytes) (payload : Payload) (params : Nat)
    (sender receiver : Account) (content result1 : Bytes) (opts : ReadOpts)
    (htxns : payload.txns = (dataTransactions params sender receiver content).length)
    (hb : numChunks content ≤ 4294967296)
    (hraw : opts.return_raw = false)
    (hdec : (if payload.iv.isSome then
        readerDecrypt crypto content payload opts.aes_key opts.password
      else Except.ok content) = Except.ok result1) :
    blocknoteRead crypto reg payload
        (dataTransactions params sender receiver content) opts
      = .ok (payload, reg (payload.compression.getD noneCodec.name) result1) := by
  rw [blocknoteRead, htxns, range_map_get,
    consolidate_dataTransactions content params sender receiver hb]
  cases hiv : payload.iv.isSome with
  | false =>
      rw [hiv] at hdec
      rw [if_neg (by simp)] at hdec
      have hres : content = result1 := by injection hdec
      subst hres
      simp only [hiv, hraw, Bool.false_and, Bool.false_eq_true, if_false,
        Bool.not_false, if_true]
      rfl
  | true =>
      rw [hiv] at hdec
      rw [if_pos rfl] at hdec
      simp only [hiv, hraw, Bool.not_false, Bool.true_and, if_true]
      show (readerDecrypt crypto content payload opts.aes_key opts.password
          >>= fun y =>
            pure (payload, reg (payload.compression.getD noneCodec.name) y))
        = Except.ok (payload, reg (payload.compression.getD noneCodec.name) result1)
      rw [hdec]
      rfl

theorem compression_dispatch (codec : Codec) :
    ((if codec.name = noneCodec.name then none else some codec.name).getD
        noneCodec.name)
      = if codec.name = noneCodec.name then noneCodec.name else codec.name := by
  by_cases h : codec.name = noneCodec.name
  · rw [if_pos h, if_pos h]
    rfl
  · rw [if_neg h, if_neg h]
    rfl

/-- C1's positive counterpart (supporting result, not itself a claim): when
the dispatched uncompress actually inverts the codec on the payload and the
AEAD decrypt inverts encrypt, reading back a save returns the original
payload bytes with the mime preserved — in every encryption mode. -/
theorem blocknote_roundtrip_of_inverses (codec : Codec) (crypto : CryptoModel)
    (mode : EncMode) (salt : Bytes) (params : Nat) (sender receiver : Account)
    (addid accid : Nat) (title mime : String) (encrypt_title : Bool)
    (raw : JSInput) (reg : String → Bytes → Bytes)
    (hcrypto : ∀ data k,
      crypto.decrypt (crypto.encrypt data k).1 (crypto.encrypt data k).2.1
        (crypto.encrypt data k).2.2 k = data)
    (hreg : reg (if codec.name = noneCodec.name then noneCodec.name else codec.name)
        (codec.compress raw) = rawBytes raw)
    (hbound : (blocknoteSave codec crypto mode salt params sender receiver
        addid accid title mime encrypt_title raw).dataTxns.length ≤ 4294967296) :
    blocknoteRead crypto reg
        (blocknoteSave codec crypto mode salt params sender receiver addid accid
          title mime encrypt_title raw).payload
        (blocknoteSave codec crypto mode salt params sender receiver addid accid
          title mime encrypt_title raw).dataTxns
        (matchingOpts mode)
      = .ok ((blocknoteSave codec crypto mode salt params sender receiver addid
          accid title mime encrypt_title raw).payload, rawBytes raw)
    ∧ (blocknoteSave codec crypto mode salt params sender receiver addid accid
        title mime encrypt_title raw).payload.mime = mime := by
  cases mode with
  | plain =>
      refine ⟨?_, rfl⟩
      have h := blocknoteRead_complete crypto reg
        (blocknoteSave codec crypto .plain salt params sender receiver addid accid
          title mime encrypt_title raw).payload
        params sender receiver (codec.compress raw) (codec.compress raw)
        (matchingOpts .plain) rfl
        (by
          rw [← dataTransactions_length params sender receiver (codec.compress raw)]
          exact hbound)
        rfl rfl
      refine h.trans ?_
      congr 1
      congr 1
      show reg ((if codec.name = noneCodec.name then none
          else some codec.name).getD noneCodec.name) (codec.compress raw)
        = rawBytes raw
      rw [compression_dispatch, hreg]
  | key k =>
      refine ⟨?_, rfl⟩
      have h := blocknoteRead_complete crypto reg
        (blocknoteSave codec crypto (.key k) salt params sender receiver addid
          accid title mime encrypt_title raw).payload
        params sender receiver
        ((crypto.encrypt (codec.compress raw) k).2.2) (codec.compress raw)
        (matchingOpts (.key k)) rfl
        (by
          rw [← dataTransactions_length params sender receiver
            ((crypto.encrypt (codec.compress raw) k).2.2)]
          exact hbound)
        rfl
        (by
          rw [if_pos (show (blocknoteSave codec crypto (.key k) salt params
              sender receiver addid accid title mime encrypt_title raw
            ).payload.iv.isSome = true from rfl)]
          show Except.ok (crypto.decrypt
              (crypto.encrypt (codec.compress raw) k).1
              (crypto.encrypt (codec.compress raw) k).2.1
              (crypto.encrypt (codec.compress raw) k).2.2 k)
            = Except.ok (codec.compress raw)
          rw [hcrypto])
      refine h.trans ?_
      congr 1
      congr 1
      show reg ((if codec.name = noneCodec.name then none
          else some codec.name).getD noneCodec.name) (codec.compress raw)
        = rawBytes raw
      rw [compression_dispatch, hreg]
  | password pw =>
      refine ⟨?_, rfl⟩
      have h := blocknoteRead_complete crypto reg
        (blocknoteSave codec crypto (.password pw) salt params sender receiver
          addid accid title mime encrypt_title raw).payload
        params sender receiver
        ((crypto.encrypt (codec.compress raw) (crypto.deriveKey pw salt)).2.2)
        (codec.compress raw)
        (matchingOpts (.password pw)) rfl
        (by
          rw [← dataTransactions_length params sender receiver
            ((crypto.encrypt (codec.compress raw) (crypto.deriveKey pw salt)).2.2)]
          exact hbound)
        rfl
        (by
          rw [if_pos (show (blocknoteSave codec crypto (.password pw) salt params
              sender receiver addid accid title mime encrypt_title raw
            ).payload.iv.isSome = true from rfl)]
          show Except.ok (crypto.decrypt
              (crypto.encrypt (codec.compress raw) (crypto.deriveKey pw salt)).1
              (crypto.encrypt (codec.compress raw) (crypto.deriveKey pw salt)).2.1
              (crypto.encrypt (codec.compress raw) (crypto.deriveKey pw salt)).2.2
              (crypto.deriveKey pw salt))
            = Except.ok (codec.compress raw)
          rw [hcrypto])
      refine h.trans ?_
      congr 1
      congr 1
      show reg ((if codec.name = noneCodec.name then none
          else some codec.name).getD noneCodec.name) (codec.compress raw)
        = rawBytes raw
      rw [compression_dispatch, hreg]

end Blocknote
